import Mathlib

/-!
Verification of the derivative-based regular-expression engine in
`regexp.py` (six-variant regex algebra, Brzozowski derivatives, a
simplification pass, a recursive-descent parser, and a random example
generator).  Strings are modelled as `List Char`.
-/

set_option maxHeartbeats 1000000

namespace Reex

open Computability

/-- The six-variant regex value type: classes `Empty`, `Null`, `Char`,
`Choice`, `Sequence`, `Repeat` of `regexp.py`. -/
inductive Regex where
  | Empty : Regex
  | Null : Regex
  | Char (char : Char) : Regex
  | Choice (left right : Regex) : Regex
  | Sequence (elements : List Regex) : Regex
  | Repeat (regex : Regex) : Regex
mutual

/-- `matches_empty` from `regexp.py`: base class returns `True`
(`Empty`, `Repeat` inherit or override to `True`), `Null` and `Char`
override to `False`, `Choice` is a disjunction, `Sequence` is
`all([re.matches_empty() for re in self.elements])`. -/
def matchesEmpty : Regex → Bool
  | .Empty => true
  | .Null => false
  | .Char _ => false
  | .Choice l r => matchesEmpty l || matchesEmpty r
  | .Sequence xs => allMatchesEmpty xs
  | .Repeat _ => true

/-- Helper for the `Sequence` case of `matchesEmpty`: conjunction over
the element list. -/
def allMatchesEmpty : List Regex → Bool
  | [] => true
  | x :: xs => matchesEmpty x && allMatchesEmpty xs

end

mutual

/-- Size measure used only to justify termination of `derivative` and
`nextChars` (which recurse through `tailOf`, i.e. through `simplify`).
A `Sequence` weighs 2 plus its elements so that both the head element
and the simplified tail are strictly smaller than the whole. -/
def msize : Regex → Nat
  | .Empty => 1
  | .Null => 1
  | .Char _ => 1
  | .Choice l r => 1 + msize l + msize r
  | .Sequence xs => 2 + msizeList xs
  | .Repeat r => 1 + msize r

/-- Total size of a list of regexes (for `msize`). -/
def msizeList : List Regex → Nat
  | [] => 0
  | x :: xs => msize x + msizeList xs

end

/-- `Sequence.head` from `regexp.py`: the first element, or `Empty()`
when the element list is empty. -/
def headOf : List Regex → Regex
  | [] => .Empty
  | x :: _ => x

/-- The element scan of `Sequence.simplify`: walk the elements; a
`Null` element makes the whole result `Null` (signalled by `none`); an
`Empty` element is dropped; a nested `Sequence` has its elements
spliced in unexamined (`elements.extend(el.elements)`); anything else
is kept. -/
def simplifyElements : List Regex → Option (List Regex)
  | [] => some []
  | .Null :: _ => none
  | .Empty :: rest => simplifyElements rest
  | .Sequence ys :: rest => (simplifyElements rest).map (fun es => ys ++ es)
  | x :: rest => (simplifyElements rest).map (fun es => x :: es)

/-- `Sequence.simplify` from `regexp.py`: scan the elements with
`simplifyElements`, then collapse: any `Null` element gives `Null`, no
surviving elements gives `Empty`, one surviving element gives that
element, otherwise a `Sequence` of the survivors.  The source defines
`simplify` only on the `Sequence` class and only ever applies it to
`Sequence` values; on the other five variants this total version is the
identity (the spec: "meaningful only for Sequence; identity
elsewhere"). -/
def simplify : Regex → Regex
  | .Sequence xs =>
    match simplifyElements xs with
    | none => .Null
    | some [] => .Empty
    | some [x] => x
    | some es => .Sequence es
  | r => r

/-- `Sequence.tail` from `regexp.py`: `Empty()` when fewer than two
elements remain, otherwise `Sequence(*self.elements[1:]).simplify()`. -/
def tailOf : List Regex → Regex
  | [] => .Empty
  | [_] => .Empty
  | _ :: rest => simplify (.Sequence rest)

theorem msizeList_nonneg (xs : List Regex) : 0 ≤ msizeList xs := Nat.zero_le _

theorem msize_pos (r : Regex) : 0 < msize r := by
  cases r <;> (simp only [msize]; omega)

theorem msizeList_cons (x : Regex) (xs : List Regex) :
    msizeList (x :: xs) = msize x + msizeList xs := rfl

theorem msizeList_append (xs ys : List Regex) :
    msizeList (xs ++ ys) = msizeList xs + msizeList ys := by
  induction xs with
  | nil => simp [msizeList]
  | cons x xs ih => simp [msizeList, ih]; omega

theorem msize_le_of_mem {x : Regex} {xs : List Regex} (h : x ∈ xs) :
    msize x ≤ msizeList xs := by
  induction xs with
  | nil => cases h
  | cons y ys ih =>
    rcases List.mem_cons.mp h with rfl | h'
    · simp only [msizeList]; omega
    · have := ih h'; simp only [msizeList]; omega

theorem msize_lt_of_mem {x : Regex} {xs : List Regex} (h : x ∈ xs) :
    msize x < msize (.Sequence xs) := by
  have := msize_le_of_mem h
  simp [msize]; omega

theorem msize_simplifyElements {xs : List Regex} {es : List Regex}
    (h : simplifyElements xs = some es) : msizeList es ≤ msizeList xs := by
  induction xs generalizing es with
  | nil => simp [simplifyElements] at h; simp [h]
  | cons x rest ih =>
    cases x with
    | Null => simp [simplifyElements] at h
    | Empty =>
      simp only [simplifyElements] at h
      have := ih h
      simp [msizeList, msize]; omega
    | Sequence ys =>
      simp only [simplifyElements, Option.map_eq_some'] at h
      obtain ⟨es', hes', rfl⟩ := h
      have := ih hes'
      simp [msizeList_append, msizeList, msize, msizeList_cons]; omega
    | Char c =>
      simp only [simplifyElements, Option.map_eq_some'] at h
      obtain ⟨es', hes', rfl⟩ := h
      have := ih hes'
      simp [msizeList, msize]; omega
    | Choice l r =>
      simp only [simplifyElements, Option.map_eq_some'] at h
      obtain ⟨es', hes', rfl⟩ := h
      have := ih hes'
      simp [msizeList]; omega
    | Repeat r =>
      simp only [simplifyElements, Option.map_eq_some'] at h
      obtain ⟨es', hes', rfl⟩ := h
      have := ih hes'
      simp [msizeList]; omega

theorem msize_simplify_le (r : Regex) : msize (simplify r) ≤ msize r := by
  cases r with
  | Sequence xs =>
    simp only [simplify]
    cases h : simplifyElements xs with
    | none => simp [msize]; omega
    | some es =>
      have hle := msize_simplifyElements h
      match es with
      | [] => simp only [msize]; omega
      | [x] =>
        simp only
        have : msize x ≤ msizeList [x] := by simp [msizeList]
        simp [msize]; omega
      | x :: y :: es => simp [msize]; omega
  | Empty => simp [simplify]
  | Null => simp [simplify]
  | Char c => simp [simplify]
  | Choice l r => simp [simplify]
  | Repeat r => simp [simplify]

theorem msize_headOf_lt (xs : List Regex) : msize (headOf xs) < msize (.Sequence xs) := by
  cases xs with
  | nil => simp [headOf, msize, msizeList]
  | cons x rest => simp [headOf, msize, msizeList]; omega

theorem msize_tailOf_lt (xs : List Regex) : msize (tailOf xs) < msize (.Sequence xs) := by
  cases xs with
  | nil => simp [tailOf, msize, msizeList]
  | cons x rest =>
    cases rest with
    | nil => simp [tailOf, msize, msizeList]; have := msize_pos x; omega
    | cons y rest' =>
      have h1 := msize_simplify_le (.Sequence (y :: rest'))
      have h2 := msize_pos x
      simp only [tailOf]
      simp [msize, msizeList] at *
      omega

/-- `derivative` from `regexp.py`.  Base class (`Empty`, `Null`)
returns `Null()`; `Char` compares the character; `Choice` maps over
both branches; `Sequence` uses `head`/`tail` and simplifies
`Sequence(head.derivative(c), tail)`, adding the
`tail.derivative(c)` alternative when the head matches empty;
`Repeat` unrolls once, unsimplified. -/
def derivative (r : Regex) (c : Char) : Regex :=
  match r with
  | .Empty => .Null
  | .Null => .Null
  | .Char a => if a = c then .Empty else .Null
  | .Choice l rr => .Choice (derivative l c) (derivative rr c)
  | .Sequence xs =>
    let hd := headOf xs
    let tl := tailOf xs
    let hd' := simplify (.Sequence [derivative hd c, tl])
    if matchesEmpty hd then .Choice (derivative tl c) hd' else hd'
  | .Repeat rr => .Sequence [derivative rr c, .Repeat rr]
termination_by msize r
decreasing_by
  all_goals first
    | exact msize_headOf_lt xs
    | exact msize_tailOf_lt xs
    | (simp only [msize]; omega)

/-- `next_chars` from `regexp.py`: base class (`Empty`, `Null`) returns
the empty set; `Char` its character; `Choice` the union; `Sequence`
follows `head`/`tail`, descending into the tail when the head matches
empty; `Repeat` its body's set. -/
def nextChars (r : Regex) : Finset Char :=
  match r with
  | .Empty => ∅
  | .Null => ∅
  | .Char a => {a}
  | .Choice l rr => nextChars l ∪ nextChars rr
  | .Sequence xs =>
    if matchesEmpty (headOf xs) then nextChars (headOf xs) ∪ nextChars (tailOf xs)
    else nextChars (headOf xs)
  | .Repeat rr => nextChars rr
termination_by msize r
decreasing_by
  all_goals first
    | exact msize_headOf_lt xs
    | exact msize_tailOf_lt xs
    | (simp only [msize]; omega)

/-- `Regex.match` from `regexp.py` (named `rmatch` here because `match`
is reserved): fold `derivative` over the characters of the string, then
ask `matches_empty` of the residual. -/
def rmatch (r : Regex) (s : List Char) : Bool :=
  matchesEmpty (s.foldl (fun re ch => derivative re ch) r)

mutual

/-- A regex with no `Null` constructor anywhere in its tree. -/
def nullFree : Regex → Bool
  | .Empty => true
  | .Null => false
  | .Char _ => true
  | .Choice l r => nullFree l && nullFree r
  | .Sequence xs => allNullFree xs
  | .Repeat r => nullFree r

/-- Helper for the `Sequence` case of `nullFree`. -/
def allNullFree : List Regex → Bool
  | [] => true
  | x :: xs => nullFree x && allNullFree xs

end

/-! ## Parser

`RegexParser` from `regexp.py`.  The parser state is the remaining
input (`self.text`), passed explicitly.  Python's two failure modes
are modelled by `ParseError`: the `IndexError` raised by `next()` on
exhausted input is `UnexpectedEndOfInput`, and the `ValueError`
raised by `eat` is `UnexpectedToken` carrying the expected and found
characters.  The mutual recursion (`regex` into `term` into `factor`
into `base` back into `regex`) is run on explicit fuel; `fuelOut`
marks fuel exhaustion, and `parse` supplies fuel proven sufficient
below. -/

/-- The two parse failure modes. -/
inductive ParseError where
  | UnexpectedToken (expected found : Char)
  | UnexpectedEndOfInput
deriving DecidableEq, Repr

/-- Result of running a fueled parsing function. -/
inductive PResult (A : Type) where
  | ok (a : A)
  | err (e : ParseError)
  | fuelOut

/-- `RegexParser.peek`: `None` on empty input, else the first character. -/
def peek : List Char → Option Char
  | [] => none
  | c :: _ => some c

/-- `RegexParser.next`: take the first character; on empty input Python
raises `IndexError`, modelled as `UnexpectedEndOfInput`. -/
def nextCh : List Char → Except ParseError (Char × List Char)
  | [] => .error .UnexpectedEndOfInput
  | c :: rest => .ok (c, rest)

/-- `RegexParser.eat`: `next()` then compare with the expected
character, raising `ValueError` (`UnexpectedToken`) on mismatch. -/
def eat (item : Char) : List Char → Except ParseError (List Char)
  | [] => .error .UnexpectedEndOfInput
  | c :: rest => if c = item then .ok rest else .error (.UnexpectedToken item c)

mutual

/-- `RegexParser.regex`: a term, optionally followed by a bar and a
right-associated alternative. -/
def regexP : Nat → List Char → PResult (Regex × List Char)
  | 0, _ => .fuelOut
  | f + 1, t =>
    match termP f t with
    | .ok (r, t') =>
      if peek t' = some '|' then
        match eat '|' t' with
        | .ok t'' =>
          match regexP f t'' with
          | .ok (r2, t3) => .ok (.Choice r r2, t3)
          | .err e => .err e
          | .fuelOut => .fuelOut
        | .error e => .err e
      else .ok (r, t')
    | .err e => .err e
    | .fuelOut => .fuelOut

/-- `RegexParser.term`: starts from an empty `Sequence` accumulator and
loops. -/
def termP (f : Nat) (t : List Char) : PResult (Regex × List Char) :=
  termLoopP f [] t

/-- The `while` loop of `RegexParser.term`: as long as the next
character exists and is neither `)` nor `|`, parse a factor and append
it; on exit return `factors.simplify()`. -/
def termLoopP : Nat → List Regex → List Char → PResult (Regex × List Char)
  | 0, _, _ => .fuelOut
  | f + 1, acc, t =>
    if peek t ≠ none ∧ peek t ≠ some ')' ∧ peek t ≠ some '|' then
      match factorP f t with
      | .ok (r, t') => termLoopP f (acc ++ [r]) t'
      | .err e => .err e
      | .fuelOut => .fuelOut
    else .ok (simplify (.Sequence acc), t)

/-- `RegexParser.factor`: a base, optionally starred (`Repeat`) or
plussed (`Sequence(base, Repeat(base))`). -/
def factorP : Nat → List Char → PResult (Regex × List Char)
  | 0, _ => .fuelOut
  | f + 1, t =>
    match baseP f t with
    | .ok (b, t') =>
      if peek t' = some '*' then
        match eat '*' t' with
        | .ok t'' => .ok (.Repeat b, t'')
        | .error e => .err e
      else if peek t' = some '+' then
        match eat '+' t' with
        | .ok t'' => .ok (.Sequence [b, .Repeat b], t'')
        | .error e => .err e
      else .ok (b, t')
    | .err e => .err e
    | .fuelOut => .fuelOut

/-- `RegexParser.base`: an escaped character, a parenthesised regex, or
any single character as a literal. -/
def baseP : Nat → List Char → PResult (Regex × List Char)
  | 0, _ => .fuelOut
  | f + 1, t =>
    if peek t = some '\\' then
      match eat '\\' t with
      | .ok t' =>
        match nextCh t' with
        | .ok (c, t'') => .ok (.Char c, t'')
        | .error e => .err e
      | .error e => .err e
    else if peek t = some '(' then
      match eat '(' t with
      | .ok t' =>
        match regexP f t' with
        | .ok (r, t'') =>
          match eat ')' t'' with
          | .ok t3 => .ok (r, t3)
          | .error e => .err e
        | .err e => .err e
        | .fuelOut => .fuelOut
      | .error e => .err e
    else
      match nextCh t with
      | .ok (c, t') => .ok (.Char c, t')
      | .error e => .err e

end

/-- `parse` from `regexp.py`: run `RegexParser(re).regex()` and return
only the regex, silently discarding any unconsumed input.  The fuel
`5 * length + 4` is proven sufficient below. -/
def parse (t : List Char) : PResult Regex :=
  match regexP (5 * t.length + 4) t with
  | .ok (r, _) => .ok r
  | .err e => .err e
  | .fuelOut => .fuelOut


/-! ## Example generator

`Regex.random_match` from `regexp.py`, with the two sources of
randomness made explicit oracles: `stopD n` is the outcome of the
`random.random() < stop_p` comparison at recursion depth `n`, and
`pickD n` is the character `random.choice` picks at depth `n` (a pick
outside the choice set, impossible for Python's `random.choice`, makes
the run invalid, result `none`).  Python's recursion carries no bound,
so the model runs on fuel; `none` also marks fuel exhaustion, and
`some s` means a possible run of the Python function returns `s`. -/

/-- `if length is not None and length > 0: length -= 1`. -/
def decBudget : Option Nat → Option Nat
  | some (n + 1) => some n
  | other => other

/-- One possible run of `Regex.random_match`, as a function of the
random oracles: stop when the regex matches empty and either the
budget is exactly 0 or the stop draw fires; stop when `next_chars()`
is empty; otherwise emit the picked character and recurse on the
derivative with a decremented budget. -/
def randomMatch (stopD : Nat → Bool) (pickD : Nat → Char) :
    Nat → Nat → Regex → Option Nat → Option (List Char)
  | 0, _, _, _ => none
  | fuel + 1, step, r, len =>
    if matchesEmpty r ∧ (len = some 0 ∨ stopD step = true) then some []
    else if nextChars r = ∅ then some []
    else if pickD step ∈ nextChars r then
      (randomMatch stopD pickD fuel (step + 1) (derivative r (pickD step))
        (decBudget len)).map (fun s => pickD step :: s)
    else none

/-! ## Denotational language semantics

The mathematical language of a regex, used to prove the behavioural
claims.  This is proof infrastructure, not a translation of any Python
function. -/

mutual

/-- The language denoted by a regex. -/
def langOf : Regex → Language Char
  | .Empty => 1
  | .Null => 0
  | .Char c => {[c]}
  | .Choice l r => langOf l + langOf r
  | .Sequence xs => langListOf xs
  | .Repeat r => (langOf r)∗

/-- The concatenation of the languages of a list of regexes. -/
def langListOf : List Regex → Language Char
  | [] => 1
  | x :: xs => langOf x * langListOf xs

end

/-! ### Basic facts about the semantics -/

/-- Strong induction on the `msize` measure. -/
theorem msize_induction {P : Regex → Prop}
    (ih : ∀ r, (∀ r', msize r' < msize r → P r') → P r) (r : Regex) : P r := by
  have aux : ∀ n r, msize r < n → P r := by
    intro n
    induction n with
    | zero => intro r h; omega
    | succ n ihn => exact fun r h => ih r (fun r' h' => ihn r' (by omega))
  exact aux (msize r + 1) r (by omega)

@[simp] theorem langOf_Empty : langOf .Empty = 1 := by simp [langOf]
@[simp] theorem langOf_Null : langOf .Null = 0 := by simp [langOf]
@[simp] theorem langOf_Char (c : Char) : langOf (.Char c) = {[c]} := by simp [langOf]
@[simp] theorem langOf_Choice (l r : Regex) :
    langOf (.Choice l r) = langOf l + langOf r := by simp [langOf]
@[simp] theorem langOf_Sequence (xs : List Regex) :
    langOf (.Sequence xs) = langListOf xs := by simp [langOf]
@[simp] theorem langOf_Repeat (r : Regex) :
    langOf (.Repeat r) = KStar.kstar (langOf r) := by simp [langOf]
@[simp] theorem langListOf_nil : langListOf [] = 1 := by simp [langListOf]
@[simp] theorem langListOf_cons (x : Regex) (xs : List Regex) :
    langListOf (x :: xs) = langOf x * langListOf xs := by simp [langListOf]

@[simp] theorem mem_langSingleton {w u : List Char} :
    w ∈ ({u} : Language Char) ↔ w = u := Iff.rfl

@[simp] theorem mem_langSup {l m : Language Char} {x : List Char} :
    x ∈ l ⊔ m ↔ x ∈ l ∨ x ∈ m := Iff.rfl

theorem langListOf_append (as bs : List Regex) :
    langListOf (as ++ bs) = langListOf as * langListOf bs := by
  induction as with
  | nil => simp
  | cons a as ih => simp [ih, mul_assoc]

@[simp] theorem matchesEmpty_Empty : matchesEmpty .Empty = true := by simp [matchesEmpty]
@[simp] theorem matchesEmpty_Null : matchesEmpty .Null = false := by simp [matchesEmpty]
@[simp] theorem matchesEmpty_Char (c : Char) : matchesEmpty (.Char c) = false := by
  simp [matchesEmpty]
@[simp] theorem matchesEmpty_Choice (l r : Regex) :
    matchesEmpty (.Choice l r) = (matchesEmpty l || matchesEmpty r) := by simp [matchesEmpty]
@[simp] theorem matchesEmpty_Sequence (xs : List Regex) :
    matchesEmpty (.Sequence xs) = allMatchesEmpty xs := by simp [matchesEmpty]
@[simp] theorem matchesEmpty_Repeat (r : Regex) : matchesEmpty (.Repeat r) = true := by
  simp [matchesEmpty]

theorem allMatchesEmpty_iff (xs : List Regex) :
    allMatchesEmpty xs = true ↔ ∀ x ∈ xs, matchesEmpty x = true := by
  induction xs with
  | nil => simp [allMatchesEmpty]
  | cons x xs ih => simp [allMatchesEmpty, ih]

theorem allNullFree_iff (xs : List Regex) :
    allNullFree xs = true ↔ ∀ x ∈ xs, nullFree x = true := by
  induction xs with
  | nil => simp [allNullFree]
  | cons x xs ih => simp [allNullFree, nullFree, ih]

@[simp] theorem nullFree_Sequence (xs : List Regex) :
    nullFree (.Sequence xs) = allNullFree xs := by simp [nullFree]

theorem nil_mem_langListOf_iff (xs : List Regex) :
    [] ∈ langListOf xs ↔ ∀ x ∈ xs, [] ∈ langOf x := by
  induction xs with
  | nil => simp
  | cons x xs ih =>
    simp only [langListOf_cons, Language.mem_mul, List.mem_cons]
    constructor
    · rintro ⟨a, ha, b, hb, hab⟩
      obtain ⟨rfl, rfl⟩ : a = [] ∧ b = [] := by
        constructor <;> [skip; skip] <;> cases a <;> simp_all
      intro y hy
      rcases hy with rfl | hy
      · exact ha
      · exact ih.mp hb y hy
    · intro h
      exact ⟨[], h x (Or.inl rfl), [], ih.mpr (fun y hy => h y (Or.inr hy)), rfl⟩

/-- `matches_empty` is correct for the denotational language. -/
theorem matchesEmpty_correct : ∀ r : Regex, matchesEmpty r = true ↔ [] ∈ langOf r := by
  intro r
  induction r using msize_induction with
  | ih r IH =>
    cases r with
    | Empty => simp
    | Null => simp
    | Char c => simp [Set.mem_singleton_iff]
    | Choice l rr =>
      have hl := IH l (by simp only [msize]; omega)
      have hr := IH rr (by simp only [msize]; omega)
      simp [hl, hr, Language.mem_add]
    | Sequence xs =>
      rw [matchesEmpty_Sequence, allMatchesEmpty_iff, langOf_Sequence, nil_mem_langListOf_iff]
      exact forall₂_congr (fun x hx => IH x (msize_lt_of_mem hx))
    | Repeat rr => simp [Language.nil_mem_kstar]

/-! ### `simplify` preserves the language -/

theorem langList_simplifyElements_none {xs : List Regex}
    (h : simplifyElements xs = none) : langListOf xs = 0 := by
  induction xs with
  | nil => simp [simplifyElements] at h
  | cons x rest ih =>
    cases x with
    | Null => simp
    | Empty =>
      simp only [simplifyElements] at h
      simp [ih h]
    | Sequence ys =>
      simp only [simplifyElements, Option.map_eq_none'] at h
      simp [ih h]
    | Char c =>
      simp only [simplifyElements, Option.map_eq_none'] at h
      simp [ih h]
    | Choice l r =>
      simp only [simplifyElements, Option.map_eq_none'] at h
      simp [ih h]
    | Repeat r =>
      simp only [simplifyElements, Option.map_eq_none'] at h
      simp [ih h]

theorem langList_simplifyElements_some {xs es : List Regex}
    (h : simplifyElements xs = some es) : langListOf es = langListOf xs := by
  induction xs generalizing es with
  | nil => simp [simplifyElements] at h; simp [h]
  | cons x rest ih =>
    cases x with
    | Null => simp [simplifyElements] at h
    | Empty =>
      simp only [simplifyElements] at h
      simp [ih h]
    | Sequence ys =>
      simp only [simplifyElements, Option.map_eq_some'] at h
      obtain ⟨es', hes', rfl⟩ := h
      simp [langListOf_append, ih hes']
    | Char c =>
      simp only [simplifyElements, Option.map_eq_some'] at h
      obtain ⟨es', hes', rfl⟩ := h
      simp [ih hes']
    | Choice l r =>
      simp only [simplifyElements, Option.map_eq_some'] at h
      obtain ⟨es', hes', rfl⟩ := h
      simp [ih hes']
    | Repeat r =>
      simp only [simplifyElements, Option.map_eq_some'] at h
      obtain ⟨es', hes', rfl⟩ := h
      simp [ih hes']

/-- `Sequence.simplify` never changes the denoted language. -/
theorem langOf_simplify (r : Regex) : langOf (simplify r) = langOf r := by
  cases r with
  | Sequence xs =>
    simp only [simplify]
    cases h : simplifyElements xs with
    | none => simp [langList_simplifyElements_none h]
    | some es =>
      have := langList_simplifyElements_some h
      match es with
      | [] => simpa using this
      | [x] => simp at this; simpa [mul_one] using this
      | x :: y :: es => simpa using this
  | Empty => simp [simplify]
  | Null => simp [simplify]
  | Char c => simp [simplify]
  | Choice l r => simp [simplify]
  | Repeat r => simp [simplify]

/-- The language of a `Sequence` decomposes through `head()` and
`tail()` exactly as `Sequence.derivative` and `Sequence.next_chars`
use them. -/
theorem langListOf_head_tail (xs : List Regex) :
    langListOf xs = langOf (headOf xs) * langOf (tailOf xs) := by
  match xs with
  | [] => simp [headOf, tailOf]
  | [x] => simp [headOf, tailOf]
  | x :: y :: rest => simp [headOf, tailOf, langOf_simplify]

/-! ### Correctness of `derivative` -/

theorem cons_eq_append_split {c : Char} {s u v : List Char} :
    c :: s = u ++ v ↔ (u = [] ∧ v = c :: s) ∨ ∃ u', u = c :: u' ∧ s = u' ++ v := by
  cases u with
  | nil => simp [eq_comm]
  | cons a u' =>
    constructor
    · intro h
      simp only [List.cons_append, List.cons.injEq] at h
      exact Or.inr ⟨u', by simp [h.1], h.2⟩
    · rintro (⟨h, _⟩ | ⟨u'', h1, h2⟩)
      · exact absurd h (by simp)
      · simp only [List.cons.injEq] at h1
        simp [h1.1, h1.2, h2]

theorem kstar_cons_split {l : Language Char} {c : Char} {s : List Char} :
    (c :: s) ∈ KStar.kstar l ↔
      ∃ u v, s = u ++ v ∧ (c :: u) ∈ l ∧ v ∈ KStar.kstar l := by
  constructor
  · intro h
    rw [show KStar.kstar l = l∗ from rfl, Language.kstar_def_nonempty] at h
    obtain ⟨S, hjoin, hS⟩ := h
    cases S with
    | nil => simp at hjoin
    | cons p S' =>
      have hp := hS p (by simp)
      obtain ⟨hpl, hpne⟩ := hp
      cases p with
      | nil => simp at hpne
      | cons a p' =>
        simp only [List.flatten_cons] at hjoin
        rw [cons_eq_append_split] at hjoin
        rcases hjoin with ⟨h, _⟩ | ⟨u', h1, h2⟩
        · simp at h
        · simp only [List.cons.injEq] at h1
          refine ⟨p', S'.flatten, ?_, ?_, ?_⟩
          · rw [h2, h1.2]
          · rw [← h1.1]; exact hpl
          · exact Language.join_mem_kstar (fun y hy => (hS y (by simp [hy])).1)
  · rintro ⟨u, v, rfl, hu, hv⟩
    rw [Language.mem_kstar] at hv
    obtain ⟨L, rfl, hL⟩ := hv
    have := Language.join_mem_kstar (l := l) (L := (c :: u) :: L)
      (fun y hy => by
        rcases List.mem_cons.mp hy with rfl | hy
        · exact hu
        · exact hL y hy)
    simpa using this

/-- Brzozowski's identity for this implementation: the language of
`derivative r c` is the left quotient by `c` of the language of `r`. -/
theorem derivative_correct :
    ∀ r : Regex, ∀ c : Char, ∀ s : List Char,
      s ∈ langOf (derivative r c) ↔ (c :: s) ∈ langOf r := by
  intro r
  induction r using msize_induction with
  | ih r IH =>
    intro c s
    cases r with
    | Empty => simp [derivative]
    | Null => simp [derivative]
    | Char a =>
      simp only [derivative]
      by_cases h : a = c
      · subst h; simp
      · simp only [if_neg h, langOf_Null, langOf_Char, mem_langSingleton]
        constructor
        · intro hs; exact (Language.not_mem_zero s hs).elim
        · intro hc
          rw [List.cons.injEq] at hc
          exact absurd hc.1.symm h
    | Choice l rr =>
      have hl := IH l (by simp only [msize]; omega) c s
      have hr := IH rr (by simp only [msize]; omega) c s
      simp only [derivative, langOf_Choice, Language.mem_add]
      rw [hl, hr]
    | Repeat rr =>
      have hd := IH rr (by simp only [msize]; omega) c
      simp only [derivative, langOf_Sequence, langListOf_cons, langListOf_nil,
        langOf_Repeat, mul_one, Language.mem_mul]
      rw [kstar_cons_split]
      constructor
      · rintro ⟨a, ha, b, hb, rfl⟩
        exact ⟨a, b, rfl, (hd a).mp ha, hb⟩
      · rintro ⟨u, v, rfl, hu, hv⟩
        exact ⟨u, (hd u).mpr hu, v, hv, rfl⟩
    | Sequence xs =>
      have hhd := IH (headOf xs) (msize_headOf_lt xs) c
      have htl := IH (tailOf xs) (msize_tailOf_lt xs) c s
      have hseq : langOf (.Sequence xs) = langOf (headOf xs) * langOf (tailOf xs) := by
        rw [langOf_Sequence, langListOf_head_tail]
      have hkey : ∀ w : List Char,
          w ∈ langOf (simplify (.Sequence [derivative (headOf xs) c, tailOf xs])) ↔
            ∃ u v, w = u ++ v ∧ (c :: u) ∈ langOf (headOf xs) ∧ v ∈ langOf (tailOf xs) := by
        intro w
        rw [langOf_simplify]
        simp only [langOf_Sequence, langListOf_cons, langListOf_nil, mul_one,
          Language.mem_mul]
        constructor
        · rintro ⟨a, ha, b, hb, rfl⟩
          exact ⟨a, b, rfl, (hhd a).mp ha, hb⟩
        · rintro ⟨u, v, rfl, hu, hv⟩
          exact ⟨u, (hhd u).mpr hu, v, hv, rfl⟩
      have hrhs : (c :: s) ∈ langOf (.Sequence xs) ↔
          (matchesEmpty (headOf xs) = true ∧ (c :: s) ∈ langOf (tailOf xs)) ∨
            ∃ u v, s = u ++ v ∧ (c :: u) ∈ langOf (headOf xs) ∧
              v ∈ langOf (tailOf xs) := by
        rw [hseq, Language.mem_mul]
        constructor
        · rintro ⟨a, ha, b, hb, hab⟩
          rw [eq_comm, cons_eq_append_split] at hab
          rcases hab with ⟨rfl, rfl⟩ | ⟨u', rfl, rfl⟩
          · exact Or.inl ⟨(matchesEmpty_correct _).mpr ha, hb⟩
          · exact Or.inr ⟨u', b, rfl, ha, hb⟩
        · rintro (⟨hme, hc⟩ | ⟨u, v, rfl, hu, hv⟩)
          · exact ⟨[], (matchesEmpty_correct _).mp hme, c :: s, hc, rfl⟩
          · exact ⟨c :: u, hu, v, hv, rfl⟩
      by_cases hme : matchesEmpty (headOf xs) = true
      · rw [show derivative (.Sequence xs) c =
            .Choice (derivative (tailOf xs) c)
              (simplify (.Sequence [derivative (headOf xs) c, tailOf xs])) by
          simp [derivative, hme]]
        rw [langOf_Choice, Language.mem_add, htl, hkey s, hrhs]
        simp [hme]
      · rw [show derivative (.Sequence xs) c =
            simplify (.Sequence [derivative (headOf xs) c, tailOf xs]) by
          simp [derivative, hme]]
        rw [hkey s, hrhs]
        simp [hme]

/-! ### Correctness of the matcher -/

theorem rmatch_nil (r : Regex) : rmatch r [] = matchesEmpty r := rfl

theorem rmatch_cons (r : Regex) (c : Char) (s : List Char) :
    rmatch r (c :: s) = rmatch (derivative r c) s := rfl

/-- `Regex.match` decides membership in the denotational language. -/
theorem rmatch_correct : ∀ (s : List Char) (r : Regex), rmatch r s = true ↔ s ∈ langOf r := by
  intro s
  induction s with
  | nil => intro r; rw [rmatch_nil]; exact matchesEmpty_correct r
  | cons c s ih =>
    intro r
    rw [rmatch_cons, ih (derivative r c)]
    exact derivative_correct r c s

/-! ### `next_chars`: completeness, and soundness on well-formed regexes -/

@[simp] theorem nextChars_Empty : nextChars .Empty = ∅ := by simp [nextChars]
@[simp] theorem nextChars_Null : nextChars .Null = ∅ := by simp [nextChars]
@[simp] theorem nextChars_Char (c : Char) : nextChars (.Char c) = {c} := by simp [nextChars]
@[simp] theorem nextChars_Choice (l r : Regex) :
    nextChars (.Choice l r) = nextChars l ∪ nextChars r := by simp [nextChars]
@[simp] theorem nextChars_Repeat (r : Regex) : nextChars (.Repeat r) = nextChars r := by
  simp [nextChars]

theorem nextChars_Sequence (xs : List Regex) :
    nextChars (.Sequence xs) =
      if matchesEmpty (headOf xs) = true then nextChars (headOf xs) ∪ nextChars (tailOf xs)
      else nextChars (headOf xs) := by
  simp [nextChars]

/-- Any character that can begin a word of the language is reported by
`next_chars` (for every regex, `Null`-containing or not). -/
theorem nextChars_complete :
    ∀ r : Regex, ∀ c : Char, ∀ s : List Char,
      (c :: s) ∈ langOf r → c ∈ nextChars r := by
  intro r
  induction r using msize_induction with
  | ih r IH =>
    intro c s hmem
    cases r with
    | Empty => simp at hmem
    | Null => exact (Language.not_mem_zero _ hmem).elim
    | Char a =>
      rw [langOf_Char, mem_langSingleton, List.cons.injEq] at hmem
      simp [hmem.1]
    | Choice l rr =>
      rw [langOf_Choice, Language.mem_add] at hmem
      rcases hmem with h | h
      · simp [IH l (by simp only [msize]; omega) c s h]
      · simp [IH rr (by simp only [msize]; omega) c s h]
    | Repeat rr =>
      rw [langOf_Repeat, kstar_cons_split] at hmem
      obtain ⟨u, v, rfl, hu, hv⟩ := hmem
      simpa using IH rr (by simp only [msize]; omega) c u hu
    | Sequence xs =>
      rw [langOf_Sequence, langListOf_head_tail, Language.mem_mul] at hmem
      obtain ⟨a, ha, b, hb, hab⟩ := hmem
      rw [eq_comm, cons_eq_append_split] at hab
      rw [nextChars_Sequence]
      rcases hab with ⟨rfl, rfl⟩ | ⟨u', rfl, rfl⟩
      · rw [if_pos ((matchesEmpty_correct _).mpr ha)]
        exact Finset.mem_union_right _ (IH (tailOf xs) (msize_tailOf_lt xs) c s hb)
      · have hc := IH (headOf xs) (msize_headOf_lt xs) c u' ha
        by_cases hme : matchesEmpty (headOf xs) = true
        · rw [if_pos hme]; exact Finset.mem_union_left _ hc
        · rw [if_neg hme]; exact hc

/-! ### Well-formed regexes

The invariant the generator run preserves: in every `Sequence`
subterm, every element after the first denotes a nonempty language.
Heads may be dead (derivatives create dead heads), but dead non-head
elements would let `next_chars` report characters that cannot be
extended to a full match.  `Null`-free regexes are well-formed, and
well-formedness is preserved by `simplify` and by `derivative`. -/

mutual

/-- Every `Sequence` subterm has all elements past the first alive. -/
def wf2 : Regex → Prop
  | .Empty => True
  | .Null => True
  | .Char _ => True
  | .Choice l r => wf2 l ∧ wf2 r
  | .Sequence xs => wf2List xs ∧ ∀ x ∈ xs.tail, (langOf x).Nonempty
  | .Repeat r => wf2 r

/-- `wf2` for every regex of a list. -/
def wf2List : List Regex → Prop
  | [] => True
  | x :: xs => wf2 x ∧ wf2List xs

end

@[simp] theorem wf2_Empty : wf2 .Empty := by simp [wf2]
@[simp] theorem wf2_Null : wf2 .Null := by simp [wf2]
@[simp] theorem wf2_Char (c : Char) : wf2 (.Char c) := by simp [wf2]
@[simp] theorem wf2_Choice (l r : Regex) : wf2 (.Choice l r) ↔ wf2 l ∧ wf2 r := by
  simp [wf2]
@[simp] theorem wf2_Repeat (r : Regex) : wf2 (.Repeat r) ↔ wf2 r := by simp [wf2]
theorem wf2_Sequence (xs : List Regex) :
    wf2 (.Sequence xs) ↔ wf2List xs ∧ ∀ x ∈ xs.tail, (langOf x).Nonempty := by
  simp [wf2]

theorem wf2List_iff (xs : List Regex) : wf2List xs ↔ ∀ x ∈ xs, wf2 x := by
  induction xs with
  | nil => simp [wf2List]
  | cons x xs ih => simp [wf2List, ih]

theorem langListOf_nonempty (xs : List Regex)
    (h : ∀ x ∈ xs, (langOf x).Nonempty) : (langListOf xs).Nonempty := by
  induction xs with
  | nil => exact ⟨[], Language.nil_mem_one⟩
  | cons x rest ih =>
    obtain ⟨u, hu⟩ := h x (by simp)
    obtain ⟨v, hv⟩ := ih (fun y hy => h y (by simp [hy]))
    exact ⟨u ++ v, by rw [langListOf_cons]; exact Language.append_mem_mul hu hv⟩

theorem langListOf_nonempty_elem {xs : List Regex}
    (h : (langListOf xs).Nonempty) : ∀ x ∈ xs, (langOf x).Nonempty := by
  induction xs with
  | nil => simp
  | cons x rest ih =>
    obtain ⟨w, hw⟩ := h
    rw [langListOf_cons, Language.mem_mul] at hw
    obtain ⟨a, ha, b, hb, _⟩ := hw
    intro y hy
    rcases List.mem_cons.mp hy with rfl | hy
    · exact ⟨a, ha⟩
    · exact ih ⟨b, hb⟩ y hy

/-- A `Null`-free regex is well-formed and denotes a nonempty language. -/
theorem nullFree_wf2_nonempty :
    ∀ r : Regex, nullFree r = true → wf2 r ∧ (langOf r).Nonempty := by
  intro r
  induction r using msize_induction with
  | ih r IH =>
    intro hnf
    cases r with
    | Empty => exact ⟨by simp, ⟨[], by rw [langOf_Empty]; exact Language.nil_mem_one⟩⟩
    | Null => simp [nullFree] at hnf
    | Char c => exact ⟨by simp, ⟨[c], by rw [langOf_Char]; exact rfl⟩⟩
    | Choice l rr =>
      simp only [nullFree, Bool.and_eq_true] at hnf
      obtain ⟨h1, h2⟩ := IH l (by simp only [msize]; omega) hnf.1
      obtain ⟨h3, h4⟩ := IH rr (by simp only [msize]; omega) hnf.2
      refine ⟨by simp [h1, h3], ?_⟩
      obtain ⟨w, hw⟩ := h2
      exact ⟨w, by rw [langOf_Choice, Language.mem_add]; exact Or.inl hw⟩
    | Repeat rr =>
      obtain ⟨h1, _⟩ := IH rr (by simp only [msize]; omega) (by simpa [nullFree] using hnf)
      exact ⟨by simp [h1], ⟨[], by rw [langOf_Repeat]; exact Language.nil_mem_kstar _⟩⟩
    | Sequence xs =>
      rw [nullFree_Sequence, allNullFree_iff] at hnf
      have hall : ∀ x ∈ xs, wf2 x ∧ (langOf x).Nonempty :=
        fun x hx => IH x (msize_lt_of_mem hx) (hnf x hx)
      refine ⟨?_, ?_⟩
      · rw [wf2_Sequence]
        exact ⟨(wf2List_iff xs).mpr (fun x hx => (hall x hx).1),
          fun x hx => (hall x (List.mem_of_mem_tail hx)).2⟩
      · rw [langOf_Sequence]
        exact langListOf_nonempty xs (fun x hx => (hall x hx).2)

theorem simplifyElements_all_wf_live {xs es : List Regex}
    (hall : ∀ x ∈ xs, wf2 x ∧ (langOf x).Nonempty)
    (h : simplifyElements xs = some es) :
    ∀ e ∈ es, wf2 e ∧ (langOf e).Nonempty := by
  induction xs generalizing es with
  | nil => simp [simplifyElements] at h; simp [h]
  | cons x rest ih =>
    have hrest : ∀ y ∈ rest, wf2 y ∧ (langOf y).Nonempty :=
      fun y hy => hall y (by simp [hy])
    cases x with
    | Null => simp [simplifyElements] at h
    | Empty =>
      simp only [simplifyElements] at h
      exact ih hrest h
    | Sequence ys =>
      simp only [simplifyElements, Option.map_eq_some'] at h
      obtain ⟨es', hes', rfl⟩ := h
      intro e he
      rcases List.mem_append.mp he with he | he
      · obtain ⟨hwf, hlive⟩ := hall (.Sequence ys) (by simp)
        rw [wf2_Sequence] at hwf
        refine ⟨(wf2List_iff ys).mp hwf.1 e he, ?_⟩
        rw [langOf_Sequence] at hlive
        exact langListOf_nonempty_elem hlive e he
      · exact ih hrest hes' e he
    | Char c =>
      simp only [simplifyElements, Option.map_eq_some'] at h
      obtain ⟨es', hes', rfl⟩ := h
      intro e he
      rcases List.mem_cons.mp he with rfl | he
      · exact hall _ (List.mem_cons_self _ _)
      · exact ih hrest hes' e he
    | Choice l r =>
      simp only [simplifyElements, Option.map_eq_some'] at h
      obtain ⟨es', hes', rfl⟩ := h
      intro e he
      rcases List.mem_cons.mp he with rfl | he
      · exact hall _ (List.mem_cons_self _ _)
      · exact ih hrest hes' e he
    | Repeat r =>
      simp only [simplifyElements, Option.map_eq_some'] at h
      obtain ⟨es', hes', rfl⟩ := h
      intro e he
      rcases List.mem_cons.mp he with rfl | he
      · exact hall _ (List.mem_cons_self _ _)
      · exact ih hrest hes' e he

theorem wf2_simplifyElements {xs es : List Regex}
    (hwf : wf2 (.Sequence xs)) (h : simplifyElements xs = some es) :
    wf2List es ∧ ∀ e ∈ es.tail, (langOf e).Nonempty := by
  rw [wf2_Sequence] at hwf
  obtain ⟨hwl, hlive⟩ := hwf
  cases xs with
  | nil =>
    simp [simplifyElements] at h
    simp [h, wf2List]
  | cons x rest =>
    have hx : wf2 x := ((wf2List_iff _).mp hwl) x (by simp)
    have hrest : ∀ y ∈ rest, wf2 y ∧ (langOf y).Nonempty := fun y hy =>
      ⟨(wf2List_iff _).mp hwl y (by simp [hy]), hlive y (by simpa using hy)⟩
    have key : ∀ es', simplifyElements rest = some es' →
        (∀ e ∈ es', wf2 e ∧ (langOf e).Nonempty) := by
      intro es' hes'
      exact simplifyElements_all_wf_live hrest hes'
    cases x with
    | Null => simp [simplifyElements] at h
    | Empty =>
      simp only [simplifyElements] at h
      refine ⟨(wf2List_iff _).mpr (fun e he => (key es h e he).1), ?_⟩
      exact fun e he => (key es h e (List.mem_of_mem_tail he)).2
    | Sequence ys =>
      simp only [simplifyElements, Option.map_eq_some'] at h
      obtain ⟨es', hes', rfl⟩ := h
      rw [wf2_Sequence] at hx
      refine ⟨(wf2List_iff _).mpr ?_, ?_⟩
      · intro e he
        rcases List.mem_append.mp he with he | he
        · exact (wf2List_iff _).mp hx.1 e he
        · exact (key es' hes' e he).1
      · intro e he
        cases ys with
        | nil =>
          simp only [List.nil_append] at he
          exact (key es' hes' e (List.mem_of_mem_tail he)).2
        | cons y0 ys' =>
          simp only [List.cons_append, List.tail_cons] at he
          rcases List.mem_append.mp he with he | he
          · exact hx.2 e (by simpa using he)
          · exact (key es' hes' e he).2
    | Char c =>
      simp only [simplifyElements, Option.map_eq_some'] at h
      obtain ⟨es', hes', rfl⟩ := h
      refine ⟨(wf2List_iff _).mpr ?_, ?_⟩
      · intro e he
        rcases List.mem_cons.mp he with rfl | he
        · exact hx
        · exact (key es' hes' e he).1
      · intro e he
        simp only [List.tail_cons] at he
        exact (key es' hes' e he).2
    | Choice l r =>
      simp only [simplifyElements, Option.map_eq_some'] at h
      obtain ⟨es', hes', rfl⟩ := h
      refine ⟨(wf2List_iff _).mpr ?_, ?_⟩
      · intro e he
        rcases List.mem_cons.mp he with rfl | he
        · exact hx
        · exact (key es' hes' e he).1
      · intro e he
        simp only [List.tail_cons] at he
        exact (key es' hes' e he).2
    | Repeat r =>
      simp only [simplifyElements, Option.map_eq_some'] at h
      obtain ⟨es', hes', rfl⟩ := h
      refine ⟨(wf2List_iff _).mpr ?_, ?_⟩
      · intro e he
        rcases List.mem_cons.mp he with rfl | he
        · exact hx
        · exact (key es' hes' e he).1
      · intro e he
        simp only [List.tail_cons] at he
        exact (key es' hes' e he).2

/-- `simplify` preserves well-formedness. -/
theorem wf2_simplify {r : Regex} (h : wf2 r) : wf2 (simplify r) := by
  cases r with
  | Sequence xs =>
    simp only [simplify]
    cases hse : simplifyElements xs with
    | none => simp
    | some es =>
      obtain ⟨h1, h2⟩ := wf2_simplifyElements h hse
      match es with
      | [] => simp
      | [x] => exact ((wf2List_iff _).mp h1) x (by simp)
      | x :: y :: es => exact (wf2_Sequence _).mpr ⟨h1, h2⟩
  | Empty => simp [simplify]
  | Null => simp [simplify]
  | Char c => simp [simplify]
  | Choice l r => simpa [simplify] using h
  | Repeat r => simpa [simplify] using h

theorem wf2_headOf {xs : List Regex} (h : wf2 (.Sequence xs)) : wf2 (headOf xs) := by
  cases xs with
  | nil => simp [headOf]
  | cons x rest =>
    rw [wf2_Sequence] at h
    exact (wf2List_iff _).mp h.1 x (by simp)

theorem wf2_tailOf {xs : List Regex} (h : wf2 (.Sequence xs)) : wf2 (tailOf xs) := by
  rw [wf2_Sequence] at h
  match xs with
  | [] => simp [tailOf]
  | [x] => simp [tailOf]
  | x :: y :: rest =>
    simp only [tailOf]
    apply wf2_simplify
    rw [wf2_Sequence]
    refine ⟨(wf2List_iff _).mpr (fun e he => (wf2List_iff _).mp h.1 e (by simp [he])), ?_⟩
    intro e he
    exact h.2 e (by simp only [List.tail_cons]; exact List.mem_cons_of_mem y he)

theorem live_tailOf {xs : List Regex} (h : wf2 (.Sequence xs)) :
    (langOf (tailOf xs)).Nonempty := by
  rw [wf2_Sequence] at h
  match xs with
  | [] => exact ⟨[], by rw [tailOf, langOf_Empty]; exact Language.nil_mem_one⟩
  | [x] => exact ⟨[], by rw [tailOf, langOf_Empty]; exact Language.nil_mem_one⟩
  | x :: y :: rest =>
    simp only [tailOf, langOf_simplify, langOf_Sequence]
    exact langListOf_nonempty _ (fun e he => h.2 e (by simpa using he))

/-- `derivative` preserves well-formedness (at every character). -/
theorem wf2_derivative : ∀ r : Regex, ∀ c : Char, wf2 r → wf2 (derivative r c) := by
  intro r
  induction r using msize_induction with
  | ih r IH =>
    intro c hwf
    cases r with
    | Empty => simp [derivative]
    | Null => simp [derivative]
    | Char a =>
      simp only [derivative]
      by_cases h : a = c <;> simp [h]
    | Choice l rr =>
      rw [wf2_Choice] at hwf
      simp only [derivative, wf2_Choice]
      exact ⟨IH l (by simp only [msize]; omega) c hwf.1,
        IH rr (by simp only [msize]; omega) c hwf.2⟩
    | Repeat rr =>
      rw [wf2_Repeat] at hwf
      simp only [derivative]
      rw [wf2_Sequence]
      refine ⟨?_, ?_⟩
      · rw [wf2List_iff]
        intro e he
        rcases List.mem_cons.mp he with rfl | he
        · exact IH rr (by simp only [msize]; omega) c hwf
        · rcases List.mem_singleton.mp he with rfl
          simpa using hwf
      · intro e he
        simp only [List.tail_cons, List.mem_singleton] at he
        subst he
        exact ⟨[], by rw [langOf_Repeat]; exact Language.nil_mem_kstar _⟩
    | Sequence xs =>
      have hhd : wf2 (headOf xs) := wf2_headOf hwf
      have htl : wf2 (tailOf xs) := wf2_tailOf hwf
      have hlive : (langOf (tailOf xs)).Nonempty := live_tailOf hwf
      have hdh : wf2 (derivative (headOf xs) c) := IH _ (msize_headOf_lt xs) c hhd
      have hdt : wf2 (derivative (tailOf xs) c) := IH _ (msize_tailOf_lt xs) c htl
      have hseq : wf2 (simplify (.Sequence [derivative (headOf xs) c, tailOf xs])) := by
        apply wf2_simplify
        rw [wf2_Sequence]
        refine ⟨(wf2List_iff _).mpr ?_, ?_⟩
        · intro e he
          rcases List.mem_cons.mp he with rfl | he
          · exact hdh
          · rcases List.mem_singleton.mp he with rfl
            exact htl
        · intro e he
          simp only [List.tail_cons, List.mem_singleton] at he
          subst he
          exact hlive
      by_cases hme : matchesEmpty (headOf xs) = true
      · rw [show derivative (.Sequence xs) c =
            .Choice (derivative (tailOf xs) c)
              (simplify (.Sequence [derivative (headOf xs) c, tailOf xs])) by
          simp [derivative, hme]]
        exact (wf2_Choice _ _).mpr ⟨hdt, hseq⟩
      · rw [show derivative (.Sequence xs) c =
            simplify (.Sequence [derivative (headOf xs) c, tailOf xs]) by
          simp [derivative, hme]]
        exact hseq

/-- On well-formed regexes, every character reported by `next_chars`
begins some word of the language. -/
theorem nextChars_sound :
    ∀ r : Regex, ∀ c : Char, wf2 r → c ∈ nextChars r →
      ∃ s, (c :: s) ∈ langOf r := by
  intro r
  induction r using msize_induction with
  | ih r IH =>
    intro c hwf hc
    cases r with
    | Empty => simp at hc
    | Null => simp at hc
    | Char a =>
      rw [nextChars_Char, Finset.mem_singleton] at hc
      subst hc
      exact ⟨[], by rw [langOf_Char]; exact rfl⟩
    | Choice l rr =>
      rw [wf2_Choice] at hwf
      rw [nextChars_Choice, Finset.mem_union] at hc
      rcases hc with hc | hc
      · obtain ⟨s, hs⟩ := IH l (by simp only [msize]; omega) c hwf.1 hc
        exact ⟨s, by rw [langOf_Choice, Language.mem_add]; exact Or.inl hs⟩
      · obtain ⟨s, hs⟩ := IH rr (by simp only [msize]; omega) c hwf.2 hc
        exact ⟨s, by rw [langOf_Choice, Language.mem_add]; exact Or.inr hs⟩
    | Repeat rr =>
      rw [wf2_Repeat] at hwf
      rw [nextChars_Repeat] at hc
      obtain ⟨s, hs⟩ := IH rr (by simp only [msize]; omega) c hwf hc
      refine ⟨s, ?_⟩
      rw [langOf_Repeat, kstar_cons_split]
      exact ⟨s, [], by simp, hs, Language.nil_mem_kstar _⟩
    | Sequence xs =>
      have hhd : wf2 (headOf xs) := wf2_headOf hwf
      have htl : wf2 (tailOf xs) := wf2_tailOf hwf
      have hlive : (langOf (tailOf xs)).Nonempty := live_tailOf hwf
      rw [nextChars_Sequence] at hc
      by_cases hme : matchesEmpty (headOf xs) = true
      · rw [if_pos hme, Finset.mem_union] at hc
        rcases hc with hc | hc
        · obtain ⟨s, hs⟩ := IH _ (msize_headOf_lt xs) c hhd hc
          obtain ⟨v, hv⟩ := hlive
          refine ⟨s ++ v, ?_⟩
          rw [langOf_Sequence, langListOf_head_tail]
          exact Language.append_mem_mul hs hv
        · obtain ⟨s, hs⟩ := IH _ (msize_tailOf_lt xs) c htl hc
          refine ⟨s, ?_⟩
          rw [langOf_Sequence, langListOf_head_tail]
          have := Language.append_mem_mul ((matchesEmpty_correct _).mp hme) hs
          simpa using this
      · rw [if_neg hme] at hc
        obtain ⟨s, hs⟩ := IH _ (msize_headOf_lt xs) c hhd hc
        obtain ⟨v, hv⟩ := hlive
        refine ⟨s ++ v, ?_⟩
        rw [langOf_Sequence, langListOf_head_tail]
        exact Language.append_mem_mul hs hv

/-! ### Soundness of the example generator -/

/-- Every terminating run of `random_match` on a well-formed regex with
nonempty language produces a word of that language. -/
theorem randomMatch_sound :
    ∀ (fuel step : Nat) (stopD : Nat → Bool) (pickD : Nat → Char) (r : Regex)
      (len : Option Nat) (s : List Char),
      wf2 r → (langOf r).Nonempty →
      randomMatch stopD pickD fuel step r len = some s → s ∈ langOf r := by
  intro fuel
  induction fuel with
  | zero => intro step stopD pickD r len s _ _ h; simp [randomMatch] at h
  | succ fuel ih =>
    intro step stopD pickD r len s hwf hne hrun
    rw [randomMatch] at hrun
    by_cases hstop : matchesEmpty r = true ∧ (len = some 0 ∨ stopD step = true)
    · rw [if_pos hstop] at hrun
      cases hrun
      exact (matchesEmpty_correct r).mp hstop.1
    · rw [if_neg hstop] at hrun
      by_cases hch : nextChars r = ∅
      · rw [if_pos hch] at hrun
        cases hrun
        obtain ⟨w, hw⟩ := hne
        cases w with
        | nil => exact hw
        | cons c w' =>
          exact absurd (nextChars_complete r c w' hw) (by simp [hch])
      · rw [if_neg hch] at hrun
        by_cases hpick : pickD step ∈ nextChars r
        · rw [if_pos hpick, Option.map_eq_some'] at hrun
          obtain ⟨s', hrec, rfl⟩ := hrun
          obtain ⟨u, hu⟩ := nextChars_sound r (pickD step) hwf hpick
          have hwf' : wf2 (derivative r (pickD step)) := wf2_derivative r _ hwf
          have hne' : (langOf (derivative r (pickD step))).Nonempty :=
            ⟨u, (derivative_correct r _ u).mpr hu⟩
          have := ih (step + 1) stopD pickD _ _ s' hwf' hne' hrec
          exact (derivative_correct r _ s').mp this
        · rw [if_neg hpick] at hrun
          cases hrun

/-! ### The parser never runs out of fuel

Python's recursive descent needs no fuel; the model does, so we prove
the fuel `parse` supplies can never be exhausted.  First: successful
sub-parses only ever shrink the remaining input (`base` and `factor`
strictly). -/

theorem eat_ok_length {item : Char} {t t' : List Char} (h : eat item t = .ok t') :
    t.length = t'.length + 1 := by
  cases t with
  | nil => simp [eat] at h
  | cons c rest =>
    simp only [eat] at h
    by_cases hc : c = item
    · rw [if_pos hc] at h
      cases h
      simp
    · rw [if_neg hc] at h
      cases h

theorem eat_ok_cons {item : Char} {t t' : List Char} (h : eat item t = .ok t') :
    t = item :: t' := by
  cases t with
  | nil => simp [eat] at h
  | cons c rest =>
    simp only [eat] at h
    by_cases hc : c = item
    · rw [if_pos hc] at h
      cases h
      rw [hc]
    · rw [if_neg hc] at h
      cases h

theorem nextCh_ok {t : List Char} {c : Char} {t' : List Char}
    (h : nextCh t = .ok (c, t')) : t = c :: t' := by
  cases t with
  | nil => simp [nextCh] at h
  | cons a rest =>
    simp only [nextCh] at h
    cases h
    rfl

theorem parser_consumption : ∀ f : Nat,
    (∀ t r t', regexP f t = .ok (r, t') → t'.length ≤ t.length) ∧
    (∀ acc t r t', termLoopP f acc t = .ok (r, t') → t'.length ≤ t.length) ∧
    (∀ t r t', factorP f t = .ok (r, t') → t'.length < t.length) ∧
    (∀ t r t', baseP f t = .ok (r, t') → t'.length < t.length) := by
  intro f
  induction f with
  | zero =>
    refine ⟨fun t r t' h => ?_, fun acc t r t' h => ?_, fun t r t' h => ?_,
      fun t r t' h => ?_⟩
    · rw [regexP] at h; cases h
    · rw [termLoopP] at h; cases h
    · rw [factorP] at h; cases h
    · rw [baseP] at h; cases h
  | succ f ih =>
    obtain ⟨ihr, ihl, ihf, ihb⟩ := ih
    have hbase : ∀ t r t', baseP (f + 1) t = .ok (r, t') → t'.length < t.length := by
      intro t r t' h
      rw [baseP] at h
      by_cases h1 : peek t = some '\\'
      · rw [if_pos h1] at h
        cases heat : eat '\\' t with
        | error e => rw [heat] at h; cases h
        | ok t1 =>
          rw [heat] at h
          simp only [] at h
          cases hnx : nextCh t1 with
          | error e => rw [hnx] at h; cases h
          | ok p =>
            obtain ⟨c, t2⟩ := p
            rw [hnx] at h
            cases h
            have e1 := eat_ok_length heat
            have e2 := nextCh_ok hnx
            subst e2
            simp at e1
            omega
      · rw [if_neg h1] at h
        by_cases h2 : peek t = some '('
        · rw [if_pos h2] at h
          cases heat : eat '(' t with
          | error e => rw [heat] at h; cases h
          | ok t1 =>
            rw [heat] at h
            simp only [] at h
            cases hreg : regexP f t1 with
            | err e => rw [hreg] at h; cases h
            | fuelOut => rw [hreg] at h; cases h
            | ok p =>
              obtain ⟨r1, t2⟩ := p
              rw [hreg] at h
              simp only [] at h
              cases heat2 : eat ')' t2 with
              | error e => rw [heat2] at h; cases h
              | ok t3 =>
                rw [heat2] at h
                cases h
                have e1 := eat_ok_length heat
                have e2 := ihr _ _ _ hreg
                have e3 := eat_ok_length heat2
                omega
        · rw [if_neg h2] at h
          cases hnx : nextCh t with
          | error e => rw [hnx] at h; cases h
          | ok p =>
            obtain ⟨c, t1⟩ := p
            rw [hnx] at h
            cases h
            have := nextCh_ok hnx
            subst this
            simp
    have hfactor : ∀ t r t', factorP (f + 1) t = .ok (r, t') → t'.length < t.length := by
      intro t r t' h
      rw [factorP] at h
      cases hb : baseP f t with
      | err e => rw [hb] at h; cases h
      | fuelOut => rw [hb] at h; cases h
      | ok p =>
        obtain ⟨b, t1⟩ := p
        rw [hb] at h
        simp only [] at h
        have e1 := ihb t b t1 hb
        by_cases hs : peek t1 = some '*'
        · rw [if_pos hs] at h
          cases heat : eat '*' t1 with
          | error e => rw [heat] at h; cases h
          | ok t2 =>
            rw [heat] at h
            cases h
            have := eat_ok_length heat
            omega
        · rw [if_neg hs] at h
          by_cases hp : peek t1 = some '+'
          · rw [if_pos hp] at h
            cases heat : eat '+' t1 with
            | error e => rw [heat] at h; cases h
            | ok t2 =>
              rw [heat] at h
              cases h
              have := eat_ok_length heat
              omega
          · rw [if_neg hp] at h
            cases h
            exact e1
    have hloop : ∀ acc t r t', termLoopP (f + 1) acc t = .ok (r, t') →
        t'.length ≤ t.length := by
      intro acc t r t' h
      rw [termLoopP] at h
      by_cases hc : peek t ≠ none ∧ peek t ≠ some ')' ∧ peek t ≠ some '|'
      · rw [if_pos hc] at h
        cases hf : factorP f t with
        | err e => rw [hf] at h; cases h
        | fuelOut => rw [hf] at h; cases h
        | ok p =>
          obtain ⟨r1, t1⟩ := p
          rw [hf] at h
          simp only [] at h
          have e1 := ihf t r1 t1 hf
          have e2 := ihl (acc ++ [r1]) t1 r t' h
          omega
      · rw [if_neg hc] at h
        cases h
        exact le_refl _
    refine ⟨?_, hloop, hfactor, hbase⟩
    intro t r t' h
    rw [regexP, termP] at h
    cases hterm : termLoopP f [] t with
    | err e => rw [hterm] at h; cases h
    | fuelOut => rw [hterm] at h; cases h
    | ok p =>
      obtain ⟨r1, t1⟩ := p
      rw [hterm] at h
      simp only [] at h
      have e1 : t1.length ≤ t.length := ihl _ _ _ _ hterm
      by_cases hbar : peek t1 = some '|'
      · rw [if_pos hbar] at h
        cases heat : eat '|' t1 with
        | error e => rw [heat] at h; cases h
        | ok t2 =>
          rw [heat] at h
          simp only [] at h
          cases hreg : regexP f t2 with
          | err e => rw [hreg] at h; cases h
          | fuelOut => rw [hreg] at h; cases h
          | ok q =>
            obtain ⟨r2, t3⟩ := q
            rw [hreg] at h
            cases h
            have e2 := eat_ok_length heat
            have e3 := ihr _ _ _ hreg
            omega
      · rw [if_neg hbar] at h
        cases h
        exact e1

/-- The fuel bound `parse` uses is sufficient: no parsing function runs
out when given fuel `5 * (input length) + (its level)`. -/
theorem parser_adequacy : ∀ f : Nat,
    (∀ t, 5 * t.length + 4 ≤ f → regexP f t ≠ .fuelOut) ∧
    (∀ acc t, 5 * t.length + 3 ≤ f → termLoopP f acc t ≠ .fuelOut) ∧
    (∀ t, 5 * t.length + 2 ≤ f → factorP f t ≠ .fuelOut) ∧
    (∀ t, 5 * t.length + 1 ≤ f → baseP f t ≠ .fuelOut) := by
  intro f
  induction f with
  | zero =>
    refine ⟨fun t h => ?_, fun acc t h => ?_, fun t h => ?_, fun t h => ?_⟩ <;> omega
  | succ f ih =>
    obtain ⟨ihr, ihl, ihf, ihb⟩ := ih
    have hbase : ∀ t, 5 * t.length + 1 ≤ f + 1 → baseP (f + 1) t ≠ .fuelOut := by
      intro t hfuel heq
      rw [baseP] at heq
      by_cases h1 : peek t = some '\\'
      · rw [if_pos h1] at heq
        cases heat : eat '\\' t with
        | error e => rw [heat] at heq; cases heq
        | ok t1 =>
          rw [heat] at heq
          simp only [] at heq
          cases hnx : nextCh t1 with
          | error e => rw [hnx] at heq; cases heq
          | ok p => obtain ⟨c, t2⟩ := p; rw [hnx] at heq; cases heq
      · rw [if_neg h1] at heq
        by_cases h2 : peek t = some '('
        · rw [if_pos h2] at heq
          cases heat : eat '(' t with
          | error e => rw [heat] at heq; cases heq
          | ok t1 =>
            rw [heat] at heq
            simp only [] at heq
            have hlen : t.length = t1.length + 1 := eat_ok_length heat
            cases hreg : regexP f t1 with
            | err e => rw [hreg] at heq; cases heq
            | fuelOut => exact ihr t1 (by omega) hreg
            | ok p =>
              obtain ⟨r1, t2⟩ := p
              rw [hreg] at heq
              simp only [] at heq
              cases heat2 : eat ')' t2 with
              | error e => rw [heat2] at heq; cases heq
              | ok t3 => rw [heat2] at heq; cases heq
        · rw [if_neg h2] at heq
          cases hnx : nextCh t with
          | error e => rw [hnx] at heq; cases heq
          | ok p => obtain ⟨c, t1⟩ := p; rw [hnx] at heq; cases heq
    have hfactor : ∀ t, 5 * t.length + 2 ≤ f + 1 → factorP (f + 1) t ≠ .fuelOut := by
      intro t hfuel heq
      rw [factorP] at heq
      cases hb : baseP f t with
      | err e => rw [hb] at heq; cases heq
      | fuelOut => exact ihb t (by omega) hb
      | ok p =>
        obtain ⟨b, t1⟩ := p
        rw [hb] at heq
        simp only [] at heq
        by_cases hs : peek t1 = some '*'
        · rw [if_pos hs] at heq
          cases heat : eat '*' t1 with
          | error e => rw [heat] at heq; cases heq
          | ok t2 => rw [heat] at heq; cases heq
        · rw [if_neg hs] at heq
          by_cases hp : peek t1 = some '+'
          · rw [if_pos hp] at heq
            cases heat : eat '+' t1 with
            | error e => rw [heat] at heq; cases heq
            | ok t2 => rw [heat] at heq; cases heq
          · rw [if_neg hp] at heq
            cases heq
    have hloop : ∀ acc t, 5 * t.length + 3 ≤ f + 1 →
        termLoopP (f + 1) acc t ≠ .fuelOut := by
      intro acc t hfuel heq
      rw [termLoopP] at heq
      by_cases hc : peek t ≠ none ∧ peek t ≠ some ')' ∧ peek t ≠ some '|'
      · rw [if_pos hc] at heq
        cases hf2 : factorP f t with
        | err e => rw [hf2] at heq; cases heq
        | fuelOut => exact ihf t (by omega) hf2
        | ok p =>
          obtain ⟨r1, t1⟩ := p
          rw [hf2] at heq
          have hlen : t1.length < t.length := (parser_consumption f).2.2.1 _ _ _ hf2
          exact ihl (acc ++ [r1]) t1 (by omega) heq
      · rw [if_neg hc] at heq
        cases heq
    refine ⟨?_, hloop, hfactor, hbase⟩
    intro t hfuel heq
    rw [regexP, termP] at heq
    cases hterm : termLoopP f [] t with
    | err e => rw [hterm] at heq; cases heq
    | fuelOut => exact ihl [] t (by omega) hterm
    | ok p =>
      obtain ⟨r1, t1⟩ := p
      rw [hterm] at heq
      simp only [] at heq
      have hlen : t1.length ≤ t.length := (parser_consumption f).2.1 _ _ _ _ hterm
      by_cases hbar : peek t1 = some '|'
      · rw [if_pos hbar] at heq
        cases heat : eat '|' t1 with
        | error e => rw [heat] at heq; cases heq
        | ok t2 =>
          rw [heat] at heq
          simp only [] at heq
          have hlen2 : t1.length = t2.length + 1 := eat_ok_length heat
          cases hreg : regexP f t2 with
          | err e => rw [hreg] at heq; cases heq
          | fuelOut => exact ihr t2 (by omega) hreg
          | ok q => obtain ⟨r2, t3⟩ := q; rw [hreg] at heq; cases heq
      · rw [if_neg hbar] at heq
        cases heq

/-- `parse` itself never runs out of fuel: it returns a regex or one of
the two parse errors. -/
theorem parse_classify (t : List Char) :
    (∃ r, parse t = .ok r) ∨ parse t = .err .UnexpectedEndOfInput ∨
      ∃ e fnd, parse t = .err (.UnexpectedToken e fnd) := by
  have h := (parser_adequacy (5 * t.length + 4)).1 t (le_refl _)
  rw [parse]
  cases hreg : regexP (5 * t.length + 4) t with
  | fuelOut => exact absurd hreg h
  | ok p =>
    obtain ⟨r, t'⟩ := p
    exact Or.inl ⟨r, rfl⟩
  | err e =>
    cases e with
    | UnexpectedEndOfInput => exact Or.inr (Or.inl rfl)
    | UnexpectedToken a b => exact Or.inr (Or.inr ⟨a, b, rfl⟩)

/-! ### Auxiliary facts for the claims -/

/-- `Null` matches no string at all. -/
theorem rmatch_Null (s : List Char) : rmatch .Null s = false := by
  induction s with
  | nil => rfl
  | cons c s ih =>
    rw [rmatch_cons, show derivative .Null c = .Null from by rw [derivative]]
    exact ih

/-- Not `Null`, not `Empty` and not a `Sequence`: an element a
`simplify` scan keeps unchanged. -/
def notSeqNullEmpty : Regex → Bool
  | .Null => false
  | .Empty => false
  | .Sequence _ => false
  | _ => true

/-- Condition under which one `simplify` pass reaches a fixpoint: any
directly nested `Sequence` element splices in only elements the scan
keeps unchanged. -/
def cleanSeqElement : Regex → Bool
  | .Sequence ys => ys.all notSeqNullEmpty
  | _ => true

/-- The hypothesis of the amended idempotence claim, at the top level
of the regex. -/
def simplifyIdemCond : Regex → Bool
  | .Sequence xs => xs.all cleanSeqElement
  | _ => true

theorem simplify_of_notSeqNullEmpty {r : Regex} (h : notSeqNullEmpty r = true) :
    simplify r = r := by
  cases r <;> simp [notSeqNullEmpty] at h ⊢ <;> simp [simplify]

theorem simplifyElements_clean {xs : List Regex}
    (h : ∀ x ∈ xs, cleanSeqElement x = true) :
    simplifyElements xs = none ∨
      ∃ es, simplifyElements xs = some es ∧ ∀ e ∈ es, notSeqNullEmpty e = true := by
  induction xs with
  | nil => exact Or.inr ⟨[], rfl, by simp⟩
  | cons x rest ih =>
    have hrest := ih (fun y hy => h y (by simp [hy]))
    cases x with
    | Null => exact Or.inl rfl
    | Empty =>
      rcases hrest with hn | ⟨es, hes, hcl⟩
      · exact Or.inl (by simp [simplifyElements, hn])
      · exact Or.inr ⟨es, by simp [simplifyElements, hes], hcl⟩
    | Sequence ys =>
      have hys : ∀ y ∈ ys, notSeqNullEmpty y = true := by
        have := h (.Sequence ys) (by simp)
        simpa [cleanSeqElement, List.all_eq_true] using this
      rcases hrest with hn | ⟨es, hes, hcl⟩
      · exact Or.inl (by simp [simplifyElements, hn])
      · refine Or.inr ⟨ys ++ es, by simp [simplifyElements, hes], ?_⟩
        intro e he
        rcases List.mem_append.mp he with he | he
        · exact hys e he
        · exact hcl e he
    | Char c =>
      rcases hrest with hn | ⟨es, hes, hcl⟩
      · exact Or.inl (by simp [simplifyElements, hn])
      · refine Or.inr ⟨.Char c :: es, by simp [simplifyElements, hes], ?_⟩
        intro e he
        rcases List.mem_cons.mp he with rfl | he
        · rfl
        · exact hcl e he
    | Choice l r =>
      rcases hrest with hn | ⟨es, hes, hcl⟩
      · exact Or.inl (by simp [simplifyElements, hn])
      · refine Or.inr ⟨.Choice l r :: es, by simp [simplifyElements, hes], ?_⟩
        intro e he
        rcases List.mem_cons.mp he with rfl | he
        · rfl
        · exact hcl e he
    | Repeat r =>
      rcases hrest with hn | ⟨es, hes, hcl⟩
      · exact Or.inl (by simp [simplifyElements, hn])
      · refine Or.inr ⟨.Repeat r :: es, by simp [simplifyElements, hes], ?_⟩
        intro e he
        rcases List.mem_cons.mp he with rfl | he
        · rfl
        · exact hcl e he

theorem simplifyElements_fixpoint {es : List Regex}
    (h : ∀ e ∈ es, notSeqNullEmpty e = true) : simplifyElements es = some es := by
  induction es with
  | nil => rfl
  | cons e rest ih =>
    have he := h e (by simp)
    have hrest := ih (fun y hy => h y (by simp [hy]))
    cases e <;> simp [notSeqNullEmpty] at he <;> simp [simplifyElements, hrest]

/-! ## The claims -/

/-- Claim C1: for every regex `R`, character `c` and string `s`,
`match(R.derivative(c), s)` holds iff `match(R, c + s)` holds, for all
six variants; the derivative denotes exactly the residual language
after consuming `c`. -/
theorem C1_derivative_residual (R : Regex) (c : Char) (s : List Char) :
    (rmatch (derivative R c) s = rmatch R (c :: s)) ∧
    (s ∈ langOf (derivative R c) ↔ (c :: s) ∈ langOf R) :=
  ⟨rfl, derivative_correct R c s⟩

unseal derivative nextChars in
/-- Claim C2, counterexample: on `Null()` (a Regex value whose language
is empty), `random_match` deterministically returns the empty string
after one step — `next_chars` is empty and the dead-end stop does not
check `matches_empty` — yet `match(Null(), "")` is false. -/
theorem C2_counterexample :
    randomMatch (fun _ => false) (fun _ => 'a') 1 0 .Null none = some [] ∧
      rmatch .Null [] = false :=
  ⟨by decide, rfl⟩

/-- Claim C2 (amended): for every `Null`-free regex `R`, every
`stop_probability` draw sequence, every pick sequence and every
optional `max_length`, a string `s` returned by `random_match`
satisfies `match(R, s) = true`. -/
theorem C2_generator_soundness (stopD : Nat → Bool) (pickD : Nat → Char)
    (fuel step : Nat) (R : Regex) (len : Option Nat) (s : List Char)
    (hnf : nullFree R = true)
    (hrun : randomMatch stopD pickD fuel step R len = some s) :
    rmatch R s = true := by
  obtain ⟨hwf, hne⟩ := nullFree_wf2_nonempty R hnf
  exact (rmatch_correct s R).mpr (randomMatch_sound fuel step stopD pickD R len s hwf hne hrun)

unseal derivative nextChars in
/-- Witness for the amended claim C2 at `R = Char('a')`. -/
theorem C2_generator_soundness_witness :
    nullFree (.Char 'a') = true ∧
    randomMatch (fun _ => false) (fun _ => 'a') 2 0 (.Char 'a') none = some ['a'] ∧
    rmatch (.Char 'a') ['a'] = true :=
  ⟨rfl, by decide,
    C2_generator_soundness (fun _ => false) (fun _ => 'a') 2 0 (.Char 'a') none ['a']
      rfl (by decide)⟩

unseal derivative nextChars in
/-- Claim C3, counterexample: for `R = Sequence(Char('a'), Null())`,
`next_chars` reports `'a'` although `R.derivative('a')` is `Null()`
and matches no string, so `next_chars` is not exactly the set of
characters whose derivative matches something. -/
theorem C3_counterexample :
    ¬ (∀ (R : Regex) (c : Char),
        c ∈ nextChars R ↔ ∃ s, rmatch (derivative R c) s = true) := by
  intro h
  obtain ⟨s, hs⟩ := (h (.Sequence [.Char 'a', .Null]) 'a').mp (by decide)
  rw [show derivative (.Sequence [.Char 'a', .Null]) 'a' = .Null from rfl,
    rmatch_Null] at hs
  cases hs

unseal derivative nextChars regexP termP termLoopP factorP baseP in
/-- Claim C3 (amended): for every `Null`-free regex `R`,
`R.next_chars()` is exactly the set of characters whose derivative
matches some string; concretely `parse("(ab)*(ce)*").next_chars() ==
{'a','c'}` and `parse("abc").next_chars() == {'a'}`. -/
theorem C3_nextChars_exact (R : Regex) (c : Char) (h : nullFree R = true) :
    (c ∈ nextChars R ↔ ∃ s, rmatch (derivative R c) s = true) ∧
    (parse "(ab)*(ce)*".toList = .ok (.Sequence [.Repeat (.Sequence [.Char 'a', .Char 'b']),
        .Repeat (.Sequence [.Char 'c', .Char 'e'])]) ∧
      nextChars (.Sequence [.Repeat (.Sequence [.Char 'a', .Char 'b']),
        .Repeat (.Sequence [.Char 'c', .Char 'e'])]) = {'a', 'c'}) ∧
    (parse "abc".toList = .ok (.Sequence [.Char 'a', .Char 'b', .Char 'c']) ∧
      nextChars (.Sequence [.Char 'a', .Char 'b', .Char 'c']) = {'a'}) := by
  refine ⟨⟨?_, ?_⟩, ⟨rfl, by decide⟩, ⟨rfl, by decide⟩⟩
  · intro hc
    obtain ⟨hwf, _⟩ := nullFree_wf2_nonempty R h
    obtain ⟨s, hs⟩ := nextChars_sound R c hwf hc
    exact ⟨s, (rmatch_correct s _).mpr ((derivative_correct R c s).mpr hs)⟩
  · rintro ⟨s, hs⟩
    exact nextChars_complete R c s ((derivative_correct R c s).mp ((rmatch_correct s _).mp hs))

/-- Witness for the amended claim C3 at `R = Char('a')`, `c = 'a'`. -/
theorem C3_nextChars_exact_witness :
    nullFree (.Char 'a') = true ∧
      ('a' ∈ nextChars (.Char 'a') ↔ ∃ s, rmatch (derivative (.Char 'a') 'a') s = true) :=
  ⟨rfl, (C3_nextChars_exact (.Char 'a') 'a' rfl).1⟩

/-- Claim C4, counterexample: `R = Sequence(Sequence(Null()),
Char('a'))` contains a `Sequence`, but one `simplify` splices in the
nested `Null` without absorbing it, so a second `simplify` gives
`Null()`: `simplify` is not idempotent on all Sequence-containing
regexes. -/
theorem C4_counterexample :
    simplify (simplify (.Sequence [.Sequence [.Null], .Char 'a'])) ≠
      simplify (.Sequence [.Sequence [.Null], .Char 'a']) := by
  intro h
  rw [show simplify (simplify (.Sequence [.Sequence [.Null], .Char 'a'])) = .Null from rfl,
    show simplify (.Sequence [.Sequence [.Null], .Char 'a']) =
      .Sequence [.Null, .Char 'a'] from rfl] at h
  cases h

/-- Claim C4 (amended): `simplify` is idempotent on every regex whose
directly nested `Sequence` elements splice in only elements that are
not `Null`, not `Empty` and not themselves `Sequence`s (in particular
on every regex that is not a `Sequence`, and on every `Sequence` of
such clean elements). -/
theorem C4_simplify_idempotent (R : Regex) (h : simplifyIdemCond R = true) :
    simplify (simplify R) = simplify R := by
  cases R with
  | Sequence xs =>
    have hcl : ∀ x ∈ xs, cleanSeqElement x = true := by
      simpa [simplifyIdemCond, List.all_eq_true] using h
    rcases simplifyElements_clean hcl with hn | ⟨es, hes, hclean⟩
    · rw [show simplify (.Sequence xs) = .Null by simp [simplify, hn]]
      simp [simplify]
    · cases es with
      | nil => simp [simplify, hes]
      | cons a es2 =>
        cases es2 with
        | nil =>
          have h1 : simplify (.Sequence xs) = a := by simp [simplify, hes]
          rw [h1]
          exact simplify_of_notSeqNullEmpty (hclean a (by simp))
        | cons b es3 =>
          have h1 : simplify (.Sequence xs) = .Sequence (a :: b :: es3) := by
            simp [simplify, hes]
          rw [h1]
          have h2 : simplifyElements (a :: b :: es3) = some (a :: b :: es3) :=
            simplifyElements_fixpoint hclean
          simp [simplify, h2]
  | Empty => simp [simplify]
  | Null => simp [simplify]
  | Char c => simp [simplify]
  | Choice l r => simp [simplify]
  | Repeat r => simp [simplify]

/-- Witness for the amended claim C4 on a Sequence-containing regex. -/
theorem C4_simplify_idempotent_witness :
    simplifyIdemCond (.Sequence [.Char 'a', .Empty,
        .Sequence [.Char 'b', .Repeat (.Char 'c')]]) = true ∧
    simplify (simplify (.Sequence [.Char 'a', .Empty,
        .Sequence [.Char 'b', .Repeat (.Char 'c')]])) =
      simplify (.Sequence [.Char 'a', .Empty,
        .Sequence [.Char 'b', .Repeat (.Char 'c')]]) :=
  ⟨rfl, C4_simplify_idempotent
    (.Sequence [.Char 'a', .Empty, .Sequence [.Char 'b', .Repeat (.Char 'c')]]) rfl⟩

/-- Claim C5: for every `Sequence` and every string, simplification
does not change whether the string matches. -/
theorem C5_simplify_preserves_match (xs : List Regex) (s : List Char) :
    rmatch (simplify (.Sequence xs)) s = rmatch (.Sequence xs) s := by
  have h1 := rmatch_correct s (simplify (.Sequence xs))
  have h2 := rmatch_correct s (.Sequence xs)
  rw [langOf_simplify] at h1
  cases hb : rmatch (.Sequence xs) s with
  | true => exact h1.mpr (h2.mp hb)
  | false =>
    cases hc : rmatch (simplify (.Sequence xs)) s with
    | false => rfl
    | true => rw [h2.mpr (h1.mp hc)] at hb; cases hb

unseal regexP termP termLoopP factorP baseP in
/-- Claim C6: parsing either succeeds or fails with one of exactly two
errors, `UnexpectedToken` (expected and found characters) or
`UnexpectedEndOfInput`; a trailing backslash is an
`UnexpectedEndOfInput`. -/
theorem C6_parse_failure_modes (t : List Char) :
    ((∃ r, parse t = .ok r) ∨ parse t = .err .UnexpectedEndOfInput ∨
      ∃ e fnd, parse t = .err (.UnexpectedToken e fnd)) ∧
    parse ['\\'] = .err .UnexpectedEndOfInput :=
  ⟨parse_classify t, rfl⟩

unseal derivative nextChars regexP termP termLoopP factorP baseP in
/-- Claim C7: `match` is `matches_empty` of the left fold of
`derivative` over the string, with the three concrete examples. -/
theorem C7_match_by_fold (R : Regex) (s : List Char) :
    (rmatch R s = matchesEmpty (List.foldl derivative R s)) ∧
    (parse "abc".toList = .ok (.Sequence [.Char 'a', .Char 'b', .Char 'c']) ∧
      rmatch (.Sequence [.Char 'a', .Char 'b', .Char 'c']) "abc".toList = true ∧
      rmatch (.Sequence [.Char 'a', .Char 'b', .Char 'c']) "ab".toList = false) ∧
    (parse "ab".toList = .ok (.Sequence [.Char 'a', .Char 'b']) ∧
      rmatch (.Sequence [.Char 'a', .Char 'b']) "abc".toList = false) :=
  ⟨rfl, ⟨rfl, by decide, by decide⟩, ⟨rfl, by decide⟩⟩

unseal regexP termP termLoopP factorP baseP in
/-- Claim C8: the parser produces the exact canonical trees, including
escapes making metacharacters literal. -/
theorem C8_parse_canonical :
    parse "a*(b|c)*df*".toList = .ok (.Sequence [.Repeat (.Char 'a'),
      .Repeat (.Choice (.Char 'b') (.Char 'c')), .Char 'd', .Repeat (.Char 'f')]) ∧
    parse "a\\)c|\\|".toList =
      .ok (.Choice (.Sequence [.Char 'a', .Char ')', .Char 'c']) (.Char '|')) :=
  ⟨rfl, rfl⟩

unseal regexP termP termLoopP factorP baseP in
/-- Claim C9: `parse` does not require full consumption: on `"a)b"`
the top-level term stops at `')'`, `regex` returns `Char('a')` with
`")b"` unconsumed, and `parse` silently discards the leftover. -/
theorem C9_leftover_discarded :
    regexP (5 * "a)b".toList.length + 4) "a)b".toList = .ok (.Char 'a', ")b".toList) ∧
    parse "a)b".toList = .ok (.Char 'a') :=
  ⟨rfl, rfl⟩

unseal derivative nextChars regexP termP termLoopP factorP baseP in
/-- Claim C10: the `max_length` budget is no hard cap: with budget 1
(any stop draws, in particular `stop_probability = 0`), `random_match`
on `parse("ab")` can only return the two-character string `"ab"`, and
does return it. -/
theorem C10_budget_not_hard_cap :
    (∀ (stopD : Nat → Bool) (pickD : Nat → Char) (fuel step : Nat) (s : List Char),
      randomMatch stopD pickD fuel step (.Sequence [.Char 'a', .Char 'b']) (some 1) =
        some s → s = ['a', 'b']) ∧
    randomMatch (fun _ => false) (fun n => if n = 0 then 'a' else 'b') 3 0
      (.Sequence [.Char 'a', .Char 'b']) (some 1) = some ['a', 'b'] ∧
    parse "ab".toList = .ok (.Sequence [.Char 'a', .Char 'b']) := by
  refine ⟨?_, by decide, rfl⟩
  intro stopD pickD fuel step s hrun
  cases fuel with
  | zero => rw [randomMatch] at hrun; cases hrun
  | succ f1 =>
    rw [randomMatch] at hrun
    rw [if_neg (fun hc => absurd hc.1 (by decide))] at hrun
    rw [if_neg (by decide : ¬(nextChars (.Sequence [.Char 'a', .Char 'b']) = ∅))] at hrun
    by_cases hp : pickD step ∈ nextChars (.Sequence [.Char 'a', .Char 'b'])
    · have hpa : pickD step = 'a' := by
        have h2 := hp
        rw [show nextChars (.Sequence [.Char 'a', .Char 'b']) = {'a'} from by decide] at h2
        exact Finset.mem_singleton.mp h2
      rw [if_pos hp, Option.map_eq_some'] at hrun
      obtain ⟨s1, hrec, rfl⟩ := hrun
      rw [hpa, show derivative (.Sequence [.Char 'a', .Char 'b']) 'a' = .Char 'b' from rfl,
        show decBudget (some 1) = some 0 from rfl] at hrec
      cases f1 with
      | zero => rw [randomMatch] at hrec; cases hrec
      | succ f2 =>
        rw [randomMatch] at hrec
        rw [if_neg (fun hc => absurd hc.1 (by decide))] at hrec
        rw [if_neg (by decide : ¬(nextChars (.Char 'b') = ∅))] at hrec
        by_cases hp2 : pickD (step + 1) ∈ nextChars (.Char 'b')
        · have hpb : pickD (step + 1) = 'b' := by
            have h3 := hp2
            rw [show nextChars (.Char 'b') = {'b'} from by decide] at h3
            exact Finset.mem_singleton.mp h3
          rw [if_pos hp2, Option.map_eq_some'] at hrec
          obtain ⟨s2, hrec2, rfl⟩ := hrec
          rw [hpb, show derivative (.Char 'b') 'b' = .Empty from rfl,
            show decBudget (some 0) = some 0 from rfl] at hrec2
          cases f2 with
          | zero => rw [randomMatch] at hrec2; cases hrec2
          | succ f3 =>
            rw [randomMatch] at hrec2
            rw [if_pos ⟨by decide, Or.inl rfl⟩] at hrec2
            cases hrec2
            rw [hpa, hpb]
        · rw [if_neg hp2] at hrec; cases hrec
    · rw [if_neg hp] at hrun; cases hrun

end Reex
